import Mathlib

/-!
Verification of the document-processing core of `AAS_CLONE/processors.py`.

Strings from the Python source are modelled as `List Char` (Python `len`
counts code points, matching `List.length`).  Each definition below embeds
one Python function or code block; the embedded lines are cited in the
doc comments.
-/

/-- Python strings are sequences of unicode code points. -/
abbrev Str := List Char

/-- Code points stripped by Python's `str.strip()` (`Py_UNICODE_ISSPACE`). -/
def pyWsCodes : List Nat :=
  [9, 10, 11, 12, 13, 28, 29, 30, 31, 32, 133, 160, 5760,
   8192, 8193, 8194, 8195, 8196, 8197, 8198, 8199, 8200, 8201, 8202,
   8232, 8233, 8239, 8287, 12288]

/-- Whether a character counts as whitespace for Python's `str.strip()`. -/
def pyWs (c : Char) : Bool := pyWsCodes.contains c.toNat

/-- Python `str.strip()`: drop leading and trailing whitespace. -/
def pyStrip (l : Str) : Str :=
  ((l.dropWhile pyWs).reverse.dropWhile pyWs).reverse

/-- The Devanagari danda, the sentence separator used by `chunk_text`. -/
def danda : Char := Char.ofNat 2404

/-- Prepend a character to the first part of a split (helper for the
splitting functions below). -/
def consHead (c : Char) : List Str → List Str
  | [] => [[c]]
  | h :: t => (c :: h) :: t

/-- Python `text.split('\n\n')`: non-overlapping leftmost splitting on the
two-character separator, keeping empty parts (`"".split` gives `[""]`). -/
def splitParas : Str → List Str
  | [] => [[]]
  | [c] => [[c]]
  | c :: d :: rest =>
    if c = '\n' ∧ d = '\n' then [] :: splitParas rest
    else consHead c (splitParas (d :: rest))

/-- Python `s.split(a)` for a single-character separator `a`. -/
def splitOnChar (a : Char) : Str → List Str
  | [] => [[]]
  | c :: rest =>
    if c = a then [] :: splitOnChar a rest
    else consHead c (splitOnChar a rest)

/-- Lines 61-63 of `processors.py`: split an oversized paragraph on the
danda; if that yields a single piece, split on tab instead. -/
def sentencesOf (p : Str) : List Str :=
  let s1 := splitOnChar danda p
  if s1.length = 1 then splitOnChar '\t' p else s1

/-- Lines 65-71 of `processors.py`: accumulate one sentence into the
`(chunks, current_chunk)` state. -/
def stepSentence (S : Nat) (st : List Str × Str) (s : Str) : List Str × Str :=
  if (st.2 ++ s).length > S then
    ((if st.2 = [] then st.1 else st.1 ++ [pyStrip st.2]), s ++ ['\t'])
  else
    (st.1, st.2 ++ s ++ ['\t'])

/-- Lines 55-78 of `processors.py`: process one paragraph. -/
def stepParagraph (S : Nat) (st : List Str × Str) (p : Str) : List Str × Str :=
  if p.length > S then
    (sentencesOf p).foldl (stepSentence S)
      ((if st.2 = [] then st.1 else st.1 ++ [pyStrip st.2]), [])
  else
    if (st.2 ++ p).length > S then
      ((if st.2 = [] then st.1 else st.1 ++ [pyStrip st.2]), p ++ ['\n', '\n'])
    else
      (st.1, st.2 ++ p ++ ['\n', '\n'])

/-- `DocumentProcessor.chunk_text` (lines 49-83 of `processors.py`). -/
def chunk_text (text : Str) (max_chunk_size : Nat) : List Str :=
  let st := (splitParas text).foldl (stepParagraph max_chunk_size) ([], [])
  if st.2 = [] then st.1 else st.1 ++ [pyStrip st.2]

/-! ## The parallel dispatcher (`process_chunks_parallel`, lines 96-131) -/

/-- Python `needle in hay` when `needle` is a leading substring of `hay`. -/
def startsWithStr : Str → Str → Bool
  | [], _ => true
  | _ :: _, [] => false
  | a :: as, b :: bs => a = b && startsWithStr as bs

/-- Python `needle in hay` substring containment. -/
def isSubstr (needle : Str) : Str → Bool
  | [] => needle.isEmpty
  | c :: rest => startsWithStr needle (c :: rest) || isSubstr needle rest

/-- Python `str.lower()` (per-character lowering). -/
def pyLower (l : Str) : Str := l.map Char.toLower

/-- Line 118 of `processors.py`: a failure message is rate-limit class when
it contains `"429"`, or its lowercase form contains `"quota"` or `"rate"`. -/
def isRateLimitMsg (e : Str) : Bool :=
  isSubstr "429".toList e || isSubstr "quota".toList (pyLower e) ||
    isSubstr "rate".toList (pyLower e)

/-- Observable actions of the dispatcher for one unit: acquiring the rate
limiter, invoking the processor (with its attempt number), and the
back-off sleep (in seconds). -/
inductive DispatchEv where
  | acquire : DispatchEv
  | call : Nat → DispatchEv
  | sleep : Nat → DispatchEv
deriving DecidableEq

/-- Per-unit result and event trace of the dispatcher (lines 103 and
114-129 of `processors.py`).  `proc n c` is the outcome of the `(n+1)`-th
invocation of the processor on chunk `c`: `Except.ok` a returned string
(possibly empty, i.e. falsy) or `Except.error` with the exception message.
The first call goes through `process_with_rate_limit` (line 103), hence
`acquire` before `call 0`; a rate-limit-class failure sleeps 5 seconds
(line 120) and retries once, again through the limiter (line 122). -/
def process_unit (proc : Nat → Str → Except Str Str) (c : Str) :
    Str × List DispatchEv :=
  match proc 0 c with
  | .ok r => (if r = [] then c else r, [.acquire, .call 0])
  | .error e =>
    if isRateLimitMsg e then
      match proc 1 c with
      | .ok r =>
        (if r = [] then c else r, [.acquire, .call 0, .sleep 5, .acquire, .call 1])
      | .error _ =>
        (c, [.acquire, .call 0, .sleep 5, .acquire, .call 1])
    else (c, [.acquire, .call 0])

/-- `DocumentProcessor.process_chunks_parallel` (lines 96-131).  The
pre-sized slot list `[None] * len(chunks)` is filled as futures complete;
`order` is the completion order of the submitted futures (any permutation
of the indices), and slot `index` receives the per-unit outcome. -/
def process_chunks_parallel (proc : Nat → Str → Except Str Str)
    (chunks : List Str) (order : List Nat) : List (Option Str) :=
  order.foldl
    (fun results i => results.set i (some (process_unit proc (chunks.getD i [])).1))
    (List.replicate chunks.length none)

/-! ## The OCR page pipeline (`OCRProcessor.perform_ocr`, lines 376-399) -/

/-- The `ocr_page` closure (lines 382-391): extract text for page `i`;
a failure or whitespace-only text contributes the empty string. -/
def ocr_page (extract : Nat → Except Str Str) (i : Nat) : Str :=
  match extract i with
  | .ok text => if pyStrip text = [] then [] else text
  | .error _ => []

/-- Python `[t for t in extracted_texts if t]`: keep filled, truthy slots. -/
def truthyTexts (l : List (Option Str)) : List Str :=
  l.filterMap fun o =>
    match o with
    | some t => if t = [] then none else some t
    | none => none

/-- `OCRProcessor.perform_ocr` (lines 376-399) for a document of `n`
pages: fill the pre-sized slot list in completion order `order`, then
join the truthy per-page texts with a blank-line boundary. -/
def perform_ocr (n : Nat) (extract : Nat → Except Str Str)
    (order : List Nat) : Str :=
  List.intercalate ['\n', '\n']
    (truthyTexts
      (order.foldl (fun res i => res.set i (some (ocr_page extract i)))
        (List.replicate n none)))

/-! ## The rate limiter (`process_with_rate_limit`, lines 85-94)

Wall-clock instants are modelled as rationals.  The critical section of
lines 87-92 reads the clock (`arrival`), sleeps until `min_interval` has
elapsed since `last_request_time`, and records the new start time. -/

/-- `self.min_request_interval = 0.2` (line 36), idealized as the exact
rational 1/5. -/
def min_request_interval : ℚ := 1 / 5

/-- Lines 87-92: the new `last_request_time` (equally, the recorded start
of the guarded call) given the previous one and the instant `arrival` at
which the lock holder reads the clock. -/
def rl_acquire (m last arrival : ℚ) : ℚ :=
  if arrival - last < m then last + m else arrival

/-- Successive recorded start times of a sequence of guarded calls whose
clock reads (in lock-acquisition order) are `arrivals`. -/
def rl_starts (m last : ℚ) : List ℚ → List ℚ
  | [] => []
  | a :: rest => rl_acquire m last a :: rl_starts m (rl_acquire m last a) rest

/-- A sequence of clock reads is admissible when each lock holder reads
the clock no earlier than the previous holder recorded its start (the
previous holder wrote `last_request_time` before releasing the lock and
clocks are monotone). -/
def rl_admissible (m last : ℚ) : List ℚ → Prop
  | [] => True
  | a :: rest => last ≤ a ∧ rl_admissible m (rl_acquire m last a) rest

/-- `process_with_rate_limit` (lines 85-94): the guarded region only
advances the limiter state; the processor runs after the lock is
released, so the returned value is `f x` and the new limiter state does
not depend on `f` or `x`. -/
def process_with_rate_limit {α β : Type} (m last arrival : ℚ) (f : α → β)
    (x : α) : ℚ × β :=
  (rl_acquire m last arrival, f x)

/-! ## Progress reporting (`update_progress`, lines 39-47 and 315-323)

Python computes `int((current / total) * 100)` with IEEE binary64
arithmetic.  The float operations are embedded exactly: a positive float
is a pair `(m, e)` of mantissa and exponent denoting `m * 2 ^ (e - 52)`,
division and multiplication round the exact rational result to nearest,
ties to even, at 53 significant bits.  (Overflow and subnormal underflow
cannot occur for the magnitudes involved and are not modelled.) -/

/-- Round `a / b` to the nearest integer, ties to even. -/
def roundNEND (a b : Nat) : Nat :=
  if 2 * (a % b) < b then a / b
  else if b < 2 * (a % b) then a / b + 1
  else if a / b % 2 = 0 then a / b else a / b + 1

/-- Fuel-driven binary logarithm (kernel-reducible). -/
def log2fuel : Nat → Nat → Nat
  | 0, _ => 0
  | fuel + 1, n => if n ≤ 1 then 0 else log2fuel fuel (n / 2) + 1

/-- Largest `k` with `2 ^ k ≤ n`, for `n ≥ 1`. -/
def natLog2 (n : Nat) : Nat := log2fuel n n

/-- Binary exponent of the positive rational `a / b`: the unique `e` with
`2 ^ e ≤ a / b < 2 ^ (e + 1)`. -/
def qExp (a b : Nat) : ℤ :=
  if b * 2 ^ natLog2 a ≤ a * 2 ^ natLog2 b then
    (natLog2 a : ℤ) - natLog2 b
  else (natLog2 a : ℤ) - natLog2 b - 1

/-- IEEE binary64 division `a / b` of the nonnegative integers `a`, `b`:
the exact quotient rounded to nearest-even at 53 bits, as a
mantissa/exponent pair denoting `m * 2 ^ (e - 52)`. -/
def floatDivND (a b : Nat) : Nat × ℤ :=
  if a = 0 then (0, 0)
  else
    let e := qExp a b
    if 0 ≤ 52 - e then (roundNEND (a * 2 ^ (52 - e).toNat) b, e)
    else (roundNEND a (b * 2 ^ (e - 52).toNat), e)

/-- IEEE binary64 multiplication of the float `p` by the exact constant
100: the exact product rounded to nearest-even at 53 bits. -/
def floatMul100 (p : Nat × ℤ) : Nat × ℤ :=
  if p.1 = 0 then (0, 0)
  else
    let a2 := 100 * p.1
    let l := natLog2 a2
    (if 52 ≤ l then roundNEND a2 (2 ^ (l - 52)) else a2 * 2 ^ (52 - l),
      p.2 + l - 52)

/-- Python `int(...)` on a nonnegative float: truncation (= floor). -/
def pyIntOfFloat (p : Nat × ℤ) : ℤ :=
  if 0 ≤ p.2 - 52 then (p.1 : ℤ) * 2 ^ (p.2 - 52).toNat
  else ((p.1 / 2 ^ (52 - p.2).toNat : Nat) : ℤ)

/-- Line 46 of `processors.py`:
`int((current / total) * 100) if total > 0 else 0`. -/
def percentage_of (current total : Nat) : ℤ :=
  if 0 < total then pyIntOfFloat (floatMul100 (floatDivND current total))
  else 0

/-- The stored progress snapshot (lines 42-47). -/
structure ProgressSnapshot where
  current : Nat
  total : Nat
  status : Str
  percentage : ℤ
deriving DecidableEq

/-- Python truthiness of `self.job_id` (line 41): `None` and the empty
string are falsy. -/
def jobTruthy : Option Str → Bool
  | none => false
  | some j => !j.isEmpty

/-- `update_progress` (lines 39-47, identical at lines 315-323): if the
job identifier is truthy, overwrite that key of the process-wide
`progress_tracker` map; otherwise do nothing. -/
def update_progress (job_id : Option Str) (tracker : Str → Option ProgressSnapshot)
    (current total : Nat) (status : Str) : Str → Option ProgressSnapshot :=
  match job_id with
  | some j =>
    if j.isEmpty then tracker
    else fun k =>
      if k = j then some ⟨current, total, status, percentage_of current total⟩
      else tracker k
  | none => tracker

/-! ## Lemmas about `pyStrip` -/

theorem dropWhile_all_append {p : Char → Bool} {w l : Str}
    (hw : ∀ c ∈ w, p c = true) :
    List.dropWhile p (w ++ l) = List.dropWhile p l := by
  induction w with
  | nil => rfl
  | cons c t ih =>
    simp only [List.cons_append, List.dropWhile_cons,
      hw c (List.mem_cons_self c t), if_true]
    exact ih fun x hx => hw x (List.mem_cons_of_mem c hx)

theorem pyStrip_length_le (l : Str) : (pyStrip l).length ≤ l.length := by
  unfold pyStrip
  calc (((l.dropWhile pyWs).reverse.dropWhile pyWs).reverse).length
      = ((l.dropWhile pyWs).reverse.dropWhile pyWs).length := List.length_reverse _
    _ ≤ (l.dropWhile pyWs).reverse.length :=
        (List.dropWhile_sublist pyWs).length_le
    _ = (l.dropWhile pyWs).length := List.length_reverse _
    _ ≤ l.length := (List.dropWhile_sublist pyWs).length_le

theorem pyStrip_append_ws {w : Str} (l : Str) (hw : ∀ c ∈ w, pyWs c = true) :
    pyStrip (l ++ w) = pyStrip l := by
  unfold pyStrip
  rcases h : List.dropWhile pyWs l with _ | ⟨c, t⟩
  · have hl : ∀ c ∈ l, pyWs c = true := List.dropWhile_eq_nil_iff.mp h
    have h2 : List.dropWhile pyWs (l ++ w) = [] := by
      refine List.dropWhile_eq_nil_iff.mpr fun x hx => ?_
      rcases List.mem_append.mp hx with h' | h'
      · exact hl x h'
      · exact hw x h'
    simp [h, h2]
  · have h2 : List.dropWhile pyWs (l ++ w) = (c :: t) ++ w := by
      rw [List.dropWhile_append, h]; simp
    rw [h2]
    have : ((c :: t) ++ w).reverse = w.reverse ++ (c :: t).reverse := by
      simp
    rw [this, dropWhile_all_append (by simpa using hw)]

theorem filter_dropWhile {q p : Char → Bool} {l : Str}
    (h : ∀ c, p c = true → q c = false) :
    List.filter q (List.dropWhile p l) = List.filter q l := by
  conv_rhs => rw [← List.takeWhile_append_dropWhile p l]
  rw [List.filter_append]
  have : List.filter q (List.takeWhile p l) = [] := by
    refine List.filter_eq_nil_iff.mpr fun a ha => ?_
    simp [h a (List.mem_takeWhile_imp ha)]
  rw [this, List.nil_append]

theorem filter_pyStrip {q : Char → Bool} (l : Str)
    (h : ∀ c, pyWs c = true → q c = false) :
    List.filter q (pyStrip l) = List.filter q l := by
  unfold pyStrip
  rw [List.filter_reverse, filter_dropWhile h, List.filter_reverse,
    List.reverse_reverse, filter_dropWhile h]

theorem dropWhile_of_head_false {p : Char → Bool} {l : Str}
    (h : ∀ c, l.head? = some c → p c = false) : List.dropWhile p l = l := by
  cases l with
  | nil => rfl
  | cons a t => simp [List.dropWhile_cons, h a rfl]

theorem pyStrip_idem (l : Str) : pyStrip (pyStrip l) = pyStrip l := by
  have hstep1 : List.dropWhile pyWs (pyStrip l) = pyStrip l := by
    refine dropWhile_of_head_false fun c hc => ?_
    -- the head of `pyStrip l` is the head of `dropWhile pyWs l`, which is not ws
    obtain ⟨t, ht⟩ := List.dropWhile_suffix (l := (l.dropWhile pyWs).reverse) pyWs
    have hpre : pyStrip l ++ t.reverse = l.dropWhile pyWs := by
      have := congrArg List.reverse ht
      simpa [pyStrip, List.reverse_append] using this
    have hhead : (l.dropWhile pyWs).head? = some c := by
      rw [← hpre]
      cases hz : pyStrip l with
      | nil => rw [hz] at hc; simp at hc
      | cons a t' =>
        rw [hz] at hc
        simp only [List.head?, Option.some.injEq] at hc
        simp [List.cons_append, List.head?, hc]
    have := List.head?_dropWhile_not pyWs l
    rw [hhead] at this
    exact this
  rw [pyStrip, hstep1]
  have hstep2 : List.dropWhile pyWs (pyStrip l).reverse = (pyStrip l).reverse := by
    refine dropWhile_of_head_false fun c hc => ?_
    have hrev : (pyStrip l).reverse = (l.dropWhile pyWs).reverse.dropWhile pyWs := by
      simp [pyStrip]
    rw [hrev] at hc
    have := List.head?_dropWhile_not pyWs (l.dropWhile pyWs).reverse
    rw [hc] at this
    exact this
  rw [hstep2, List.reverse_reverse]

/-! ## Lemmas about the splitting functions -/

theorem flatten_map_filter_consHead (q : Char → Bool) (c : Char) (L : List Str) :
    ((consHead c L).map (List.filter q)).flatten =
      List.filter q [c] ++ (L.map (List.filter q)).flatten := by
  cases L with
  | nil => simp [consHead, List.filter_cons]
  | cons h t =>
    simp [consHead, List.filter_cons]
    cases hqc : q c <;> simp

theorem splitParas_flatten_filter (q : Char → Bool) (hq : q '\n' = false)
    (l : Str) :
    ((splitParas l).map (List.filter q)).flatten = List.filter q l := by
  induction l using splitParas.induct with
  | case1 => simp [splitParas]
  | case2 c => simp [splitParas, List.filter]
  | case3 c d rest h ih =>
    obtain ⟨hc, hd⟩ := h
    subst hc; subst hd
    rw [splitParas, if_pos (And.intro rfl rfl)]
    simp [List.filter_cons, hq, ih]
  | case4 c d rest h ih =>
    rw [splitParas, if_neg h, flatten_map_filter_consHead, ih]
    simp [List.filter_cons]
    cases hqc : q c <;> simp

theorem splitOnChar_flatten_filter (q : Char → Bool) (a : Char)
    (hq : q a = false) (l : Str) :
    ((splitOnChar a l).map (List.filter q)).flatten = List.filter q l := by
  induction l with
  | nil => simp [splitOnChar]
  | cons c rest ih =>
    rw [splitOnChar]
    by_cases hca : c = a
    · rw [if_pos hca]; subst hca; simp [List.filter_cons, hq, ih]
    · rw [if_neg hca, flatten_map_filter_consHead, ih]
      simp [List.filter_cons]
      cases hqc : q c <;> simp

theorem sentencesOf_flatten_filter (q : Char → Bool) (hqd : q danda = false)
    (hqt : q '\t' = false) (p : Str) :
    ((sentencesOf p).map (List.filter q)).flatten = List.filter q p := by
  rw [sentencesOf]
  split
  · exact splitOnChar_flatten_filter q '\t' hqt p
  · exact splitOnChar_flatten_filter q danda hqd p

theorem splitOnChar_of_not_mem {a : Char} : ∀ {l : Str}, a ∉ l →
    splitOnChar a l = [l] := by
  intro l
  induction l with
  | nil => intro _; rfl
  | cons c rest ih =>
    intro h
    rw [splitOnChar,
      if_neg (fun hca => h (by subst hca; exact List.mem_cons_self _ _))]
    rw [ih (fun ha => h (List.mem_cons_of_mem c ha))]
    rfl

theorem splitParas_of_no_boundary : ∀ {l : Str},
    ¬ (['\n', '\n'] <:+: l) → splitParas l = [l] := by
  intro l
  induction l using splitParas.induct with
  | case1 => intro _; rfl
  | case2 c => intro _; rfl
  | case3 c d rest h ih =>
    intro hinf
    obtain ⟨hc, hd⟩ := h
    subst hc; subst hd
    exact absurd ⟨[], rest, by simp⟩ hinf
  | case4 c d rest h ih =>
    intro hinf
    rw [splitParas, if_neg h,
      ih (fun h' => hinf (h'.trans (List.suffix_cons c (d :: rest)).isInfix))]
    rfl

theorem mem_of_mem_splitParas : ∀ {l x : Str}, x ∈ splitParas l →
    ∀ {c : Char}, c ∈ x → c ∈ l := by
  intro l
  induction l using splitParas.induct with
  | case1 =>
    intro x hx c hc
    simp [splitParas] at hx
    subst hx; exact absurd hc (List.not_mem_nil c)
  | case2 c' =>
    intro x hx c hc
    simp [splitParas] at hx
    subst hx; exact hc
  | case3 c' d rest h ih =>
    intro x hx c hc
    obtain ⟨hc', hd⟩ := h
    subst hc'; subst hd
    rw [splitParas, if_pos (And.intro rfl rfl)] at hx
    rcases List.mem_cons.mp hx with h' | h'
    · subst h'; exact absurd hc (List.not_mem_nil c)
    · exact List.mem_cons_of_mem _ (List.mem_cons_of_mem _ (ih h' hc))
  | case4 c' d rest h ih =>
    intro x hx c hc
    rw [splitParas, if_neg h] at hx
    rcases hL : splitParas (d :: rest) with _ | ⟨hd0, tl⟩
    · rw [hL] at hx
      simp [consHead] at hx
      subst hx
      rcases List.mem_singleton.mp hc with rfl
      exact List.mem_cons_self _ _
    · rw [hL] at hx
      rcases List.mem_cons.mp hx with h' | h'
      · subst h'
        rcases List.mem_cons.mp hc with rfl | h''
        · exact List.mem_cons_self _ _
        · exact List.mem_cons_of_mem _ (ih (hL ▸ List.mem_cons_self hd0 tl) h'')
      · exact List.mem_cons_of_mem _ (ih (hL ▸ List.mem_cons_of_mem hd0 h') hc)

theorem mem_of_mem_splitOnChar {a : Char} : ∀ {l x : Str},
    x ∈ splitOnChar a l → ∀ {c : Char}, c ∈ x → c ∈ l := by
  intro l
  induction l with
  | nil =>
    intro x hx c hc
    simp [splitOnChar] at hx
    subst hx; exact absurd hc (List.not_mem_nil c)
  | cons c' rest ih =>
    intro x hx c hc
    rw [splitOnChar] at hx
    by_cases hca : c' = a
    · rw [if_pos hca] at hx
      rcases List.mem_cons.mp hx with h' | h'
      · subst h'; exact absurd hc (List.not_mem_nil c)
      · exact List.mem_cons_of_mem _ (ih h' hc)
    · rw [if_neg hca] at hx
      rcases hL : splitOnChar a rest with _ | ⟨hd0, tl⟩
      · rw [hL] at hx
        simp [consHead] at hx
        subst hx
        rcases List.mem_singleton.mp hc with rfl
        exact List.mem_cons_self _ _
      · rw [hL] at hx
        rcases List.mem_cons.mp hx with h' | h'
        · subst h'
          rcases List.mem_cons.mp hc with rfl | h''
          · exact List.mem_cons_self _ _
          · exact List.mem_cons_of_mem _ (ih (hL ▸ List.mem_cons_self hd0 tl) h'')
        · exact List.mem_cons_of_mem _ (ih (hL ▸ List.mem_cons_of_mem hd0 h') hc)

theorem mem_of_mem_sentencesOf {p x : Str} (hx : x ∈ sentencesOf p)
    {c : Char} (hc : c ∈ x) : c ∈ p := by
  rw [sentencesOf] at hx
  split at hx
  · exact mem_of_mem_splitOnChar hx hc
  · exact mem_of_mem_splitOnChar hx hc

theorem mem_of_mem_pyStrip {l : Str} {c : Char} (h : c ∈ pyStrip l) : c ∈ l := by
  rw [pyStrip, List.mem_reverse] at h
  have h2 := (List.dropWhile_sublist pyWs).subset h
  rw [List.mem_reverse] at h2
  exact (List.dropWhile_sublist pyWs).subset h2

/-! ## Content preservation through `chunk_text`

`contentQ q` is the `q`-filtered content of the chunking state: the
filtered emitted chunks followed by the filtered accumulator. -/

/-- The `q`-filtered content of a `(chunks, current_chunk)` state. -/
def contentQ (q : Char → Bool) (st : List Str × Str) : Str :=
  (st.1.map (List.filter q)).flatten ++ List.filter q st.2

theorem contentQ_stepSentence (q : Char → Bool)
    (hq : ∀ c, pyWs c = true → q c = false) (S : Nat) (st : List Str × Str)
    (s : Str) :
    contentQ q (stepSentence S st s) = contentQ q st ++ List.filter q s := by
  have hqt : q '\t' = false := hq '\t' (by decide)
  rw [stepSentence]
  split
  · by_cases hcur : st.2 = []
    · simp [contentQ, hcur, List.filter_append, List.filter_cons, hqt]
    · rw [if_neg hcur]
      simp [contentQ, List.filter_append, List.filter_cons, hqt,
        filter_pyStrip _ hq, List.append_assoc]
  · simp [contentQ, List.filter_append, List.filter_cons, hqt, List.append_assoc]

theorem contentQ_foldl_sentences (q : Char → Bool)
    (hq : ∀ c, pyWs c = true → q c = false) (S : Nat) :
    ∀ (sl : List Str) (st : List Str × Str),
    contentQ q (sl.foldl (stepSentence S) st) =
      contentQ q st ++ (sl.map (List.filter q)).flatten := by
  intro sl
  induction sl with
  | nil => intro st; simp
  | cons s t ih =>
    intro st
    rw [List.foldl_cons, ih, contentQ_stepSentence q hq]
    simp [List.append_assoc]

theorem contentQ_stepParagraph (q : Char → Bool)
    (hq : ∀ c, pyWs c = true → q c = false) (hqd : q danda = false)
    (S : Nat) (st : List Str × Str) (p : Str) :
    contentQ q (stepParagraph S st p) = contentQ q st ++ List.filter q p := by
  have hqn : q '\n' = false := hq '\n' (by decide)
  have hqt : q '\t' = false := hq '\t' (by decide)
  rw [stepParagraph]
  split
  · rw [contentQ_foldl_sentences q hq, sentencesOf_flatten_filter q hqd hqt]
    by_cases hcur : st.2 = []
    · simp [contentQ, hcur]
    · rw [if_neg hcur]
      simp [contentQ, filter_pyStrip _ hq, List.append_assoc]
  · split
    · by_cases hcur : st.2 = []
      · simp [contentQ, hcur, List.filter_append, List.filter_cons, hqn]
      · rw [if_neg hcur]
        simp [contentQ, List.filter_append, List.filter_cons, hqn,
          filter_pyStrip _ hq, List.append_assoc]
    · simp [contentQ, List.filter_append, List.filter_cons, hqn, List.append_assoc]

theorem contentQ_foldl_paras (q : Char → Bool)
    (hq : ∀ c, pyWs c = true → q c = false) (hqd : q danda = false) (S : Nat) :
    ∀ (pl : List Str) (st : List Str × Str),
    contentQ q (pl.foldl (stepParagraph S) st) =
      contentQ q st ++ (pl.map (List.filter q)).flatten := by
  intro pl
  induction pl with
  | nil => intro st; simp
  | cons p t ih =>
    intro st
    rw [List.foldl_cons, ih, contentQ_stepParagraph q hq hqd]
    simp [List.append_assoc]

theorem chunk_text_content (q : Char → Bool)
    (hq : ∀ c, pyWs c = true → q c = false) (hqd : q danda = false)
    (T : Str) (S : Nat) :
    List.filter q (chunk_text T S).flatten = List.filter q T := by
  have hqn : q '\n' = false := hq '\n' (by decide)
  rw [chunk_text]
  have hmain := contentQ_foldl_paras q hq hqd S (splitParas T) ([], [])
  rw [splitParas_flatten_filter q hqn] at hmain
  simp only [contentQ, List.map_nil, List.flatten_nil, List.filter_nil,
    List.nil_append, List.append_nil] at hmain
  set st := (splitParas T).foldl (stepParagraph S) ([], []) with hst
  split
  · rename_i h2
    rw [List.filter_flatten, ← hmain, h2]
    simp
  · rw [List.filter_flatten, ← hmain]
    simp [filter_pyStrip _ hq]

/-! ## Character provenance: chunk characters come from the text,
apart from the inserted tab and newline separators -/

/-- A character a chunking state over text `T` may contain. -/
def charsIn (T : Str) (c : Char) : Prop := c ∈ T ∨ c = '\t' ∨ c = '\n'

/-- All characters of a chunking state are from `T` or are separators. -/
def charsOK (T : Str) (st : List Str × Str) : Prop :=
  (∀ c ∈ st.1.flatten, charsIn T c) ∧ ∀ c ∈ st.2, charsIn T c

theorem charsOK_flush {T : Str} {st : List Str × Str} (h : charsOK T st) :
    ∀ c ∈ ((if st.2 = [] then st.1 else st.1 ++ [pyStrip st.2]) : List Str).flatten,
      charsIn T c := by
  split
  · exact h.1
  · intro c hc
    rw [List.flatten_append] at hc
    rcases List.mem_append.mp hc with h' | h'
    · exact h.1 c h'
    · simp only [List.flatten_cons, List.flatten_nil, List.append_nil] at h'
      exact h.2 c (mem_of_mem_pyStrip h')

theorem charsOK_stepSentence {T : Str} (S : Nat) {st : List Str × Str} {s : Str}
    (hs : ∀ c ∈ s, c ∈ T) (h : charsOK T st) :
    charsOK T (stepSentence S st s) := by
  rw [stepSentence]
  split
  · refine ⟨charsOK_flush h, fun c hc => ?_⟩
    rcases List.mem_append.mp hc with h' | h'
    · exact Or.inl (hs c h')
    · simp at h'
      exact Or.inr (Or.inl h')
  · refine ⟨h.1, fun c hc => ?_⟩
    rcases List.mem_append.mp hc with h' | h'
    · rcases List.mem_append.mp h' with h'' | h''
      · exact h.2 c h''
      · exact Or.inl (hs c h'')
    · simp at h'
      exact Or.inr (Or.inl h')

theorem charsOK_stepParagraph {T : Str} (S : Nat) {st : List Str × Str} {p : Str}
    (hp : ∀ c ∈ p, c ∈ T) (h : charsOK T st) :
    charsOK T (stepParagraph S st p) := by
  rw [stepParagraph]
  split
  · have hbase : charsOK T
        ((if st.2 = [] then st.1 else st.1 ++ [pyStrip st.2]), ([] : Str)) :=
      ⟨charsOK_flush h, by simp⟩
    have : ∀ (sl : List Str), (∀ s ∈ sl, ∀ c ∈ s, c ∈ T) →
        ∀ (st' : List Str × Str), charsOK T st' →
        charsOK T (sl.foldl (stepSentence S) st') := by
      intro sl
      induction sl with
      | nil => intro _ st' h'; exact h'
      | cons s t ih =>
        intro hsl st' h'
        rw [List.foldl_cons]
        exact ih (fun x hx => hsl x (List.mem_cons_of_mem s hx)) _
          (charsOK_stepSentence S (hsl s (List.mem_cons_self s t)) h')
    exact this (sentencesOf p)
      (fun x hx c hc => hp c (mem_of_mem_sentencesOf hx hc)) _ hbase
  · split
    · refine ⟨charsOK_flush h, fun c hc => ?_⟩
      rcases List.mem_append.mp hc with h' | h'
      · exact Or.inl (hp c h')
      · simp at h'
        exact Or.inr (Or.inr h')
    · refine ⟨h.1, fun c hc => ?_⟩
      rcases List.mem_append.mp hc with h' | h'
      · rcases List.mem_append.mp h' with h'' | h''
        · exact h.2 c h''
        · exact Or.inl (hp c h'')
      · simp at h'
        exact Or.inr (Or.inr h')

theorem chunk_text_chars (T : Str) (S : Nat) :
    ∀ c ∈ (chunk_text T S).flatten, charsIn T c := by
  have hfold : ∀ (pl : List Str), (∀ p ∈ pl, ∀ c ∈ p, c ∈ T) →
      ∀ (st : List Str × Str), charsOK T st →
      charsOK T (pl.foldl (stepParagraph S) st) := by
    intro pl
    induction pl with
    | nil => intro _ st h; exact h
    | cons p t ih =>
      intro hpl st h
      rw [List.foldl_cons]
      exact ih (fun x hx => hpl x (List.mem_cons_of_mem p hx)) _
        (charsOK_stepParagraph S (hpl p (List.mem_cons_self p t)) h)
  have hst : charsOK T ((splitParas T).foldl (stepParagraph S) ([], [])) :=
    hfold (splitParas T) (fun p hp c hc => mem_of_mem_splitParas hp hc) _
      ⟨by simp, by simp⟩
  rw [chunk_text]
  split
  · exact hst.1
  · intro c hc
    rw [List.flatten_append] at hc
    rcases List.mem_append.mp hc with h' | h'
    · exact hst.1 c h'
    · simp only [List.flatten_cons, List.flatten_nil, List.append_nil] at h'
      exact hst.2 c (mem_of_mem_pyStrip h')

/-! ## Chunk size invariant -/

theorem pyStrip_tab (x : Str) : pyStrip (x ++ ['\t']) = pyStrip x :=
  pyStrip_append_ws x (by decide)

theorem pyStrip_nlnl (x : Str) : pyStrip (x ++ ['\n', '\n']) = pyStrip x :=
  pyStrip_append_ws x (by decide)

/-- A chunk is within the size limit, or is (the strip of) a single
atomic sentence segment of an oversized paragraph, itself oversized. -/
def chunkOK (T : Str) (S : Nat) (c : Str) : Prop :=
  c.length ≤ S ∨ ∃ p, p ∈ splitParas T ∧ S < p.length ∧
    ∃ s, s ∈ sentencesOf p ∧ S < s.length ∧ c = pyStrip s

/-- The accumulator is empty, strips to within the limit, or is an
oversized atomic sentence followed by the tab terminator. -/
def curOK (T : Str) (S : Nat) (cur : Str) : Prop :=
  cur = [] ∨ (pyStrip cur).length ≤ S ∨ ∃ p, p ∈ splitParas T ∧ S < p.length ∧
    ∃ s, s ∈ sentencesOf p ∧ S < s.length ∧ cur = s ++ ['\t']

theorem chunkOK_of_curOK {T : Str} {S : Nat} {cur : Str} (h : curOK T S cur) :
    chunkOK T S (pyStrip cur) := by
  rcases h with h | h | ⟨p, hp, hplen, s, hs, hslen, heq⟩
  · subst h; left; simp [pyStrip]
  · exact Or.inl h
  · right
    exact ⟨p, hp, hplen, s, hs, hslen, by rw [heq, pyStrip_tab]⟩

theorem curOK_sentence {T p s : Str} {S : Nat} (hp : p ∈ splitParas T)
    (hplen : S < p.length) (hs : s ∈ sentencesOf p) :
    curOK T S (s ++ ['\t']) := by
  by_cases hlen : s.length ≤ S
  · right; left
    rw [pyStrip_tab]
    exact le_trans (pyStrip_length_le s) hlen
  · right; right
    exact ⟨p, hp, hplen, s, hs, Nat.lt_of_not_le hlen, rfl⟩

theorem curOK_para_small {T p : Str} {S : Nat} (hplen : p.length ≤ S) :
    curOK T S (p ++ ['\n', '\n']) := by
  right; left
  rw [pyStrip_nlnl]
  exact le_trans (pyStrip_length_le p) hplen

theorem curOK_append_tab {T cur s : Str} {S : Nat}
    (hlen : (cur ++ s).length ≤ S) : curOK T S (cur ++ s ++ ['\t']) := by
  right; left
  rw [pyStrip_tab]
  exact le_trans (pyStrip_length_le _) hlen

theorem curOK_append_nlnl {T cur p : Str} {S : Nat}
    (hlen : (cur ++ p).length ≤ S) : curOK T S (cur ++ p ++ ['\n', '\n']) := by
  right; left
  rw [pyStrip_nlnl]
  exact le_trans (pyStrip_length_le _) hlen

theorem chunkOK_flush {T : Str} {S : Nat} {st : List Str × Str}
    (hch : ∀ c ∈ st.1, chunkOK T S c) (hcur : curOK T S st.2) :
    ∀ c ∈ ((if st.2 = [] then st.1 else st.1 ++ [pyStrip st.2]) : List Str),
      chunkOK T S c := by
  split
  · exact hch
  · intro c hc
    rcases List.mem_append.mp hc with h' | h'
    · exact hch c h'
    · rw [List.mem_singleton.mp h']
      exact chunkOK_of_curOK hcur

theorem sizeOK_stepSentence {T p s : Str} {S : Nat} {st : List Str × Str}
    (hp : p ∈ splitParas T) (hplen : S < p.length) (hs : s ∈ sentencesOf p)
    (hch : ∀ c ∈ st.1, chunkOK T S c) (hcur : curOK T S st.2) :
    (∀ c ∈ (stepSentence S st s).1, chunkOK T S c) ∧
      curOK T S (stepSentence S st s).2 := by
  rw [stepSentence]
  split
  · exact ⟨chunkOK_flush hch hcur, curOK_sentence hp hplen hs⟩
  · rename_i hle
    exact ⟨hch, curOK_append_tab (Nat.le_of_not_lt hle)⟩

theorem sizeOK_stepParagraph {T p : Str} {S : Nat} {st : List Str × Str}
    (hp : p ∈ splitParas T)
    (hch : ∀ c ∈ st.1, chunkOK T S c) (hcur : curOK T S st.2) :
    (∀ c ∈ (stepParagraph S st p).1, chunkOK T S c) ∧
      curOK T S (stepParagraph S st p).2 := by
  rw [stepParagraph]
  split
  · rename_i hplen
    have hfold : ∀ (sl : List Str), (∀ x ∈ sl, x ∈ sentencesOf p) →
        ∀ (st' : List Str × Str), (∀ c ∈ st'.1, chunkOK T S c) → curOK T S st'.2 →
        (∀ c ∈ (sl.foldl (stepSentence S) st').1, chunkOK T S c) ∧
          curOK T S (sl.foldl (stepSentence S) st').2 := by
      intro sl
      induction sl with
      | nil => intro _ st' h1 h2; exact ⟨h1, h2⟩
      | cons x t ih =>
        intro hsl st' h1 h2
        rw [List.foldl_cons]
        have hstep := sizeOK_stepSentence hp hplen
          (hsl x (List.mem_cons_self x t)) h1 h2
        exact ih (fun y hy => hsl y (List.mem_cons_of_mem x hy)) _ hstep.1 hstep.2
    exact hfold (sentencesOf p) (fun x hx => hx) _ (chunkOK_flush hch hcur)
      (Or.inl rfl)
  · split
    · exact ⟨chunkOK_flush hch hcur, curOK_para_small (Nat.le_of_not_lt (by assumption))⟩
    · rename_i hle
      exact ⟨hch, curOK_append_nlnl (Nat.le_of_not_lt hle)⟩

theorem chunk_text_sizes (T : Str) (S : Nat) :
    ∀ c ∈ chunk_text T S, chunkOK T S c := by
  have hfold : ∀ (pl : List Str), (∀ x ∈ pl, x ∈ splitParas T) →
      ∀ (st : List Str × Str), (∀ c ∈ st.1, chunkOK T S c) → curOK T S st.2 →
      (∀ c ∈ (pl.foldl (stepParagraph S) st).1, chunkOK T S c) ∧
        curOK T S (pl.foldl (stepParagraph S) st).2 := by
    intro pl
    induction pl with
    | nil => intro _ st h1 h2; exact ⟨h1, h2⟩
    | cons x t ih =>
      intro hpl st h1 h2
      rw [List.foldl_cons]
      have hstep := sizeOK_stepParagraph (hpl x (List.mem_cons_self x t)) h1 h2
      exact ih (fun y hy => hpl y (List.mem_cons_of_mem x hy)) _ hstep.1 hstep.2
  have hst := hfold (splitParas T) (fun x hx => hx) ([], [])
    (by simp) (Or.inl rfl)
  rw [chunk_text]
  split
  · exact hst.1
  · intro c hc
    rcases List.mem_append.mp hc with h' | h'
    · exact hst.1 c h'
    · rw [List.mem_singleton.mp h']
      exact chunkOK_of_curOK hst.2

/-! ## Every emitted chunk is already stripped -/

theorem stripped_flush {st : List Str × Str}
    (h : ∀ c ∈ st.1, pyStrip c = c) :
    ∀ c ∈ ((if st.2 = [] then st.1 else st.1 ++ [pyStrip st.2]) : List Str),
      pyStrip c = c := by
  split
  · exact h
  · intro c hc
    rcases List.mem_append.mp hc with h' | h'
    · exact h c h'
    · rw [List.mem_singleton.mp h']
      exact pyStrip_idem st.2

theorem stripped_stepSentence {S : Nat} {st : List Str × Str} {s : Str}
    (h : ∀ c ∈ st.1, pyStrip c = c) :
    ∀ c ∈ (stepSentence S st s).1, pyStrip c = c := by
  rw [stepSentence]
  split
  · exact stripped_flush h
  · exact h

theorem stripped_stepParagraph {S : Nat} {st : List Str × Str} {p : Str}
    (h : ∀ c ∈ st.1, pyStrip c = c) :
    ∀ c ∈ (stepParagraph S st p).1, pyStrip c = c := by
  rw [stepParagraph]
  split
  · have hfold : ∀ (sl : List Str) (st' : List Str × Str),
        (∀ c ∈ st'.1, pyStrip c = c) →
        ∀ c ∈ (sl.foldl (stepSentence S) st').1, pyStrip c = c := by
      intro sl
      induction sl with
      | nil => intro st' h'; exact h'
      | cons x t ih =>
        intro st' h'
        rw [List.foldl_cons]
        exact ih _ (stripped_stepSentence h')
    exact hfold (sentencesOf p) _ (stripped_flush h)
  · split
    · exact stripped_flush h
    · exact h

theorem chunk_text_stripped (T : Str) (S : Nat) :
    ∀ c ∈ chunk_text T S, pyStrip c = c := by
  have hfold : ∀ (pl : List Str) (st : List Str × Str),
      (∀ c ∈ st.1, pyStrip c = c) →
      ∀ c ∈ (pl.foldl (stepParagraph S) st).1, pyStrip c = c := by
    intro pl
    induction pl with
    | nil => intro st h; exact h
    | cons x t ih =>
      intro st h
      rw [List.foldl_cons]
      exact ih _ (stripped_stepParagraph h)
  have hst := hfold (splitParas T) ([], []) (by simp)
  rw [chunk_text]
  split
  · exact hst
  · intro c hc
    rcases List.mem_append.mp hc with h' | h'
    · exact hst c h'
    · rw [List.mem_singleton.mp h']
      exact pyStrip_idem _

/-! ## Slot filling by completion order -/

theorem foldl_set_spec {α : Type} (f : Nat → α) :
    ∀ (order : List Nat) (init : List (Option α)),
    ((order.foldl (fun r j => r.set j (some (f j))) init).length = init.length) ∧
    (∀ i, i ∈ order → i < init.length →
      (order.foldl (fun r j => r.set j (some (f j))) init)[i]? = some (some (f i))) ∧
    (∀ i, i ∉ order →
      (order.foldl (fun r j => r.set j (some (f j))) init)[i]? = init[i]?) := by
  intro order
  induction order with
  | nil => intro init; exact ⟨rfl, fun i hi => absurd hi (List.not_mem_nil i), fun _ _ => rfl⟩
  | cons j rest ih =>
    intro init
    obtain ⟨ihlen, ihmem, ihnot⟩ := ih (init.set j (some (f j)))
    refine ⟨by rw [List.foldl_cons, ihlen, List.length_set], ?_, ?_⟩
    · intro i hi hilt
      rw [List.foldl_cons]
      by_cases hmem : i ∈ rest
      · exact ihmem i hmem (by rw [List.length_set]; exact hilt)
      · have hij : i = j := by
          rcases List.mem_cons.mp hi with h' | h'
          · exact h'
          · exact absurd h' hmem
        subst hij
        rw [ihnot i hmem, List.getElem?_set, if_pos rfl, if_pos hilt]
    · intro i hi
      rw [List.foldl_cons, ihnot i (fun h => hi (List.mem_cons_of_mem j h)),
        List.getElem?_set,
        if_neg (fun h => hi (by rw [← h]; exact List.mem_cons_self j rest))]

theorem fill_eq_map {α : Type} (f : Nat → α) (n : Nat) (order : List Nat)
    (h : order.Perm (List.range n)) :
    order.foldl (fun r j => r.set j (some (f j))) (List.replicate n none) =
      (List.range n).map (fun i => some (f i)) := by
  obtain ⟨hlen, hmem, hnot⟩ := foldl_set_spec f order (List.replicate n none)
  apply List.ext_getElem?
  intro i
  by_cases hi : i < n
  · rw [hmem i (h.mem_iff.mpr (List.mem_range.mpr hi))
      (by rw [List.length_replicate]; exact hi)]
    rw [List.getElem?_map, List.getElem?_range hi]
    rfl
  · have h1 : (order.foldl (fun r j => r.set j (some (f j)))
        (List.replicate n none))[i]? = none := by
      apply List.getElem?_eq_none
      rw [hlen, List.length_replicate]
      exact Nat.le_of_not_lt hi
    rw [h1]
    symm
    apply List.getElem?_eq_none
    rw [List.length_map, List.length_range]
    exact Nat.le_of_not_lt hi

theorem range_map_getD {α β : Type} (l : List α) (d : α) (g : α → β) :
    (List.range l.length).map (fun i => g (l.getD i d)) = l.map g := by
  apply List.ext_getElem
  · simp
  · intro i h1 h2
    simp only [List.getElem_map, List.getElem_range]
    rw [List.getD_eq_getElem l d (by simpa using h2)]

theorem process_chunks_parallel_eq (proc : Nat → Str → Except Str Str)
    (chunks : List Str) (order : List Nat)
    (h : order.Perm (List.range chunks.length)) :
    process_chunks_parallel proc chunks order =
      chunks.map (fun c => some (process_unit proc c).1) := by
  rw [process_chunks_parallel,
    fill_eq_map (fun j => (process_unit proc (chunks.getD j [])).1) _ _ h]
  exact range_map_getD chunks [] (fun c => some (process_unit proc c).1)

theorem truthyTexts_map_some (l : List Str) :
    truthyTexts (l.map some) = l.filter (fun t => !t.isEmpty) := by
  induction l with
  | nil => rfl
  | cons t rest ih =>
    rw [List.map_cons, truthyTexts, List.filterMap_cons, List.filter_cons]
    by_cases ht : t = []
    · subst ht; simpa [truthyTexts] using ih
    · simp only [ht, if_false]
      have : t.isEmpty = false := by
        cases t
        · exact absurd rfl ht
        · rfl
      simp only [this, Bool.not_false, if_true]
      rw [← ih]
      rfl

theorem perform_ocr_eq (n : Nat) (extract : Nat → Except Str Str)
    (order : List Nat) (h : order.Perm (List.range n)) :
    perform_ocr n extract order =
      List.intercalate ['\n', '\n']
        (((List.range n).map (ocr_page extract)).filter (fun t => !t.isEmpty)) := by
  rw [perform_ocr, fill_eq_map (ocr_page extract) n order h]
  have hmm : (List.range n).map (fun i => some (ocr_page extract i)) =
      ((List.range n).map (ocr_page extract)).map some := by
    rw [List.map_map]
    rfl
  rw [hmm, truthyTexts_map_some]

/-! ## Edge cases of `chunk_text` -/

theorem chunk_text_nil (S : Nat) : chunk_text [] S = [[]] := by
  have h1 : splitParas [] = [[]] := rfl
  rw [chunk_text, h1]
  have h2 : stepParagraph S ([], []) [] = ([], ['\n', '\n']) := by
    rw [stepParagraph]
    simp
  rw [List.foldl_cons, List.foldl_nil, h2]
  norm_num
  decide

theorem chunk_text_single (T : Str) (S : Nat) (hlen : T.length ≤ S)
    (hnb : ¬ (['\n', '\n'] <:+: T)) : chunk_text T S = [pyStrip T] := by
  rw [chunk_text, splitParas_of_no_boundary hnb, List.foldl_cons, List.foldl_nil]
  have h2 : stepParagraph S ([], []) T = ([], T ++ ['\n', '\n']) := by
    rw [stepParagraph, if_neg (by simpa using Nat.not_lt.mpr hlen)]
    rw [if_neg (by simpa using Nat.not_lt.mpr hlen)]
    simp
  rw [h2]
  have h3 : T ++ ['\n', '\n'] ≠ [] := by simp
  simp only [h3, if_false, pyStrip_nlnl]
  rfl

/-! ## Rate limiter timing -/

theorem rl_acquire_ge (m last a : ℚ) : last + m ≤ rl_acquire m last a := by
  rw [rl_acquire]
  split
  · exact le_refl _
  · linarith [not_lt.mp (by assumption : ¬ a - last < m)]

theorem rl_starts_length (m : ℚ) :
    ∀ (arrivals : List ℚ) (last : ℚ),
    (rl_starts m last arrivals).length = arrivals.length := by
  intro arrivals
  induction arrivals with
  | nil => intro last; rfl
  | cons a rest ih => intro last; rw [rl_starts]; simp [ih]

theorem rl_starts_get_le (m : ℚ) :
    ∀ (arrivals : List ℚ) (last : ℚ) (i j : Nat)
    (hi : i < (rl_starts m last arrivals).length)
    (hj : j < (rl_starts m last arrivals).length), i ≤ j →
    (rl_starts m last arrivals).get ⟨i, hi⟩ + ((j - i : ℕ) : ℚ) * m ≤
      (rl_starts m last arrivals).get ⟨j, hj⟩ := by
  intro arrivals
  induction arrivals with
  | nil => intro last i j hi; exact absurd hi (by simp [rl_starts])
  | cons a rest ih =>
    intro last i j hi hj hij
    rcases i with _ | i'
    · rcases j with _ | j'
      · simp
      · have hj' : j' < (rl_starts m (rl_acquire m last a) rest).length := by
          have := hj
          rw [rl_starts] at this
          simpa using this
        have hgoal0 : (rl_starts m last (a :: rest)).get ⟨0, hi⟩ =
            rl_acquire m last a := rfl
        have hgoalj : (rl_starts m last (a :: rest)).get ⟨j' + 1, hj⟩ =
            (rl_starts m (rl_acquire m last a) rest).get ⟨j', hj'⟩ := rfl
        rw [hgoal0, hgoalj]
        rcases rest with _ | ⟨a', rest'⟩
        · exact absurd hj' (by simp [rl_starts])
        · have hfirst : (rl_starts m (rl_acquire m last a) (a' :: rest')).get
              ⟨0, by simp [rl_starts]⟩ =
              rl_acquire m (rl_acquire m last a) a' := rfl
          have hchain := ih (rl_acquire m last a) 0 j'
            (by simp [rl_starts]) hj' (Nat.zero_le j')
          rw [hfirst] at hchain
          have hstep := rl_acquire_ge m (rl_acquire m last a) a'
          have hcast : ((j' + 1 - 0 : ℕ) : ℚ) = ((j' - 0 : ℕ) : ℚ) + 1 := by
            push_cast
            norm_num
          rw [hcast]
          linarith
    · rcases j with _ | j'
      · exact absurd hij (by simp)
      · have hi' : i' < (rl_starts m (rl_acquire m last a) rest).length := by
          have := hi
          rw [rl_starts] at this
          simpa using this
        have hj' : j' < (rl_starts m (rl_acquire m last a) rest).length := by
          have := hj
          rw [rl_starts] at this
          simpa using this
        have h1 : (rl_starts m last (a :: rest)).get ⟨i' + 1, hi⟩ =
            (rl_starts m (rl_acquire m last a) rest).get ⟨i', hi'⟩ := rfl
        have h2 : (rl_starts m last (a :: rest)).get ⟨j' + 1, hj⟩ =
            (rl_starts m (rl_acquire m last a) rest).get ⟨j', hj'⟩ := rfl
        rw [h1, h2]
        have hcast : ((j' + 1 - (i' + 1) : ℕ) : ℚ) = ((j' - i' : ℕ) : ℚ) := by
          congr 1
          omega
        rw [hcast]
        exact ih (rl_acquire m last a) i' j' hi' hj' (Nat.le_of_succ_le_succ hij)

/-! ## Facts about the float model -/

theorem log2fuel_spec : ∀ (fuel n : Nat), n ≤ fuel → 1 ≤ n →
    2 ^ log2fuel fuel n ≤ n ∧ n < 2 ^ (log2fuel fuel n + 1) := by
  intro fuel
  induction fuel with
  | zero => intro n h1 h2; omega
  | succ fuel ih =>
    intro n h1 h2
    rw [log2fuel]
    by_cases hn : n ≤ 1
    · have : n = 1 := by omega
      subst this
      simp
    · rw [if_neg hn]
      obtain ⟨ha, hb⟩ := ih (n / 2) (by omega) (by omega)
      rw [pow_succ] at hb
      constructor
      · rw [pow_succ]
        omega
      · rw [pow_succ, pow_succ]
        omega

theorem natLog2_spec (n : Nat) (h : 1 ≤ n) :
    2 ^ natLog2 n ≤ n ∧ n < 2 ^ (natLog2 n + 1) :=
  log2fuel_spec n n (le_refl n) h

theorem roundNEND_le {a b n : Nat} (hb : 0 < b) (h : a ≤ b * n) :
    roundNEND a b ≤ n := by
  have h1 : a < (n + 1) * b := by
    calc a ≤ b * n := h
      _ < b * n + b := Nat.lt_add_of_pos_right hb
      _ = (n + 1) * b := by ring
  have hf : a / b ≤ n := Nat.lt_succ_iff.mp ((Nat.div_lt_iff_lt_mul hb).mpr h1)
  have hstrict : b ≤ 2 * (a % b) → a / b < n := by
    intro hge
    rcases Nat.lt_or_ge (a / b) n with h' | h'
    · exact h'
    · exfalso
      have hfn : a / b = n := le_antisymm hf h'
      have hmod := Nat.div_add_mod a b
      rw [hfn] at hmod
      have hr : a % b = 0 := by
        generalize hbn : b * n = P at hmod h
        omega
      omega
  rw [roundNEND]
  split_ifs with h1' h2' h3'
  · exact hf
  · exact Nat.succ_le_of_lt (hstrict (by omega))
  · exact hf
  · exact Nat.succ_le_of_lt (hstrict (by omega))

theorem roundNEND_ge {a b n : Nat} (hb : 0 < b) (h : b * n ≤ a) :
    n ≤ roundNEND a b := by
  have hf : n ≤ a / b := (Nat.le_div_iff_mul_le hb).mpr (by rw [mul_comm]; exact h)
  rw [roundNEND]
  split_ifs <;> omega

theorem roundNEND_le_div_succ (a b : Nat) : roundNEND a b ≤ a / b + 1 := by
  rw [roundNEND]
  split_ifs <;> omega

theorem zpow_natCast_sub (x y : Nat) :
    (2 : ℚ) ^ ((x : ℤ) - y) = (2 : ℚ) ^ x / 2 ^ y := by
  rw [zpow_sub₀ (by norm_num : (2 : ℚ) ≠ 0), zpow_natCast, zpow_natCast]

theorem qExp_spec (a b : Nat) (ha : 0 < a) (hb : 0 < b) :
    (2 : ℚ) ^ qExp a b ≤ (a : ℚ) / b ∧ ((a : ℚ) : ℚ) / b < 2 ^ (qExp a b + 1) := by
  obtain ⟨ha1, ha2⟩ := natLog2_spec a ha
  obtain ⟨hb1, hb2⟩ := natLog2_spec b hb
  have hbq : (0 : ℚ) < (b : ℚ) := by exact_mod_cast hb
  have hpbq : (0 : ℚ) < (2 : ℚ) ^ natLog2 b := by positivity
  have hpbq1 : (0 : ℚ) < (2 : ℚ) ^ (natLog2 b + 1) := by positivity
  have h2b : 0 < 2 ^ natLog2 b := Nat.pos_pow_of_pos _ (by norm_num)
  rw [qExp]
  split
  · rename_i hcond
    constructor
    · rw [zpow_natCast_sub, div_le_div_iff₀ hpbq hbq]
      have hnat : 2 ^ natLog2 a * b ≤ a * 2 ^ natLog2 b := by
        rw [Nat.mul_comm]; exact hcond
      exact_mod_cast hnat
    · have hcast : ((natLog2 a : ℤ) - natLog2 b + 1) =
          ((natLog2 a + 1 : ℕ) : ℤ) - (natLog2 b : ℕ) := by push_cast; ring
      rw [hcast, zpow_natCast_sub, div_lt_div_iff₀ hbq hpbq]
      have hnat : a * 2 ^ natLog2 b < 2 ^ (natLog2 a + 1) * b := by
        calc a * 2 ^ natLog2 b < 2 ^ (natLog2 a + 1) * 2 ^ natLog2 b :=
              mul_lt_mul_of_pos_right ha2 h2b
          _ ≤ 2 ^ (natLog2 a + 1) * b := Nat.mul_le_mul_left _ hb1
      exact_mod_cast hnat
  · rename_i hcond
    have hcond' : a * 2 ^ natLog2 b < b * 2 ^ natLog2 a := Nat.lt_of_not_le hcond
    constructor
    · have hcast : ((natLog2 a : ℤ) - natLog2 b - 1) =
          ((natLog2 a : ℕ) : ℤ) - ((natLog2 b + 1 : ℕ) : ℤ) := by push_cast; ring
      rw [hcast, zpow_natCast_sub, div_le_div_iff₀ hpbq1 hbq]
      have hnat : 2 ^ natLog2 a * b ≤ a * 2 ^ (natLog2 b + 1) := by
        calc 2 ^ natLog2 a * b ≤ a * b := Nat.mul_le_mul_right b ha1
          _ ≤ a * 2 ^ (natLog2 b + 1) := Nat.mul_le_mul_left a (le_of_lt hb2)
      exact_mod_cast hnat
    · have hcast : ((natLog2 a : ℤ) - natLog2 b - 1 + 1) =
          ((natLog2 a : ℕ) : ℤ) - (natLog2 b : ℕ) := by ring
      rw [hcast, zpow_natCast_sub, div_lt_div_iff₀ hbq hpbq]
      have hnat : a * 2 ^ natLog2 b < 2 ^ natLog2 a * b := by
        rw [Nat.mul_comm (2 ^ natLog2 a) b]; exact hcond'
      exact_mod_cast hnat

theorem floatDivND_spec {c t : Nat} (hc : 0 < c) (hct : c ≤ t) :
    (floatDivND c t).2 ≤ 0 ∧
    (floatDivND c t).1 ≤ 2 ^ (52 - (floatDivND c t).2).toNat ∧
    2 ^ 52 ≤ (floatDivND c t).1 := by
  have ht : 0 < t := lt_of_lt_of_le hc hct
  obtain ⟨hlo, hhi⟩ := qExp_spec c t hc ht
  have htq : (0 : ℚ) < t := by exact_mod_cast ht
  have hdivle1 : (c : ℚ) / t ≤ 1 := by
    rw [div_le_one htq]; exact_mod_cast hct
  have he0 : qExp c t ≤ 0 := by
    by_contra hpos
    push_neg at hpos
    have h1 : (1 : ℕ) ≤ (qExp c t).toNat := by omega
    have h2 : (2 : ℚ) ^ qExp c t = 2 ^ (qExp c t).toNat := by
      rw [← zpow_natCast]
      congr 1
      omega
    have h3 : (2 : ℚ) ^ (1 : ℕ) ≤ 2 ^ (qExp c t).toNat :=
      pow_le_pow_right₀ (by norm_num) h1
    rw [h2] at hlo
    have : (2 : ℚ) ≤ (c : ℚ) / t := by
      calc (2 : ℚ) = 2 ^ (1 : ℕ) := by norm_num
        _ ≤ 2 ^ (qExp c t).toNat := h3
        _ ≤ (c : ℚ) / t := hlo
    linarith
  have hbr : (0 : ℤ) ≤ 52 - qExp c t := by omega
  have hkz : (((52 - qExp c t).toNat : ℕ) : ℤ) = 52 - qExp c t :=
    Int.toNat_of_nonneg hbr
  have hfd : floatDivND c t =
      (roundNEND (c * 2 ^ (52 - qExp c t).toNat) t, qExp c t) := by
    rw [floatDivND, if_neg (by omega : ¬ c = 0)]
    simp only [if_pos hbr]
  rw [hfd]
  refine ⟨he0, ?_, ?_⟩
  · show roundNEND (c * 2 ^ (52 - qExp c t).toNat) t ≤
      2 ^ (52 - qExp c t).toNat
    exact roundNEND_le ht (Nat.mul_le_mul_right _ hct)
  · show 2 ^ 52 ≤ roundNEND (c * 2 ^ (52 - qExp c t).toNat) t
    apply roundNEND_ge ht
    have hq1 : (2 : ℚ) ^ qExp c t * t ≤ c := by
      rw [← le_div_iff₀ htq]; exact hlo
    have hq2 : (t : ℚ) * 2 ^ (52 : ℤ) ≤ c * 2 ^ ((52 - qExp c t).toNat : ℕ) := by
      have hmul := mul_le_mul_of_nonneg_right hq1
        (le_of_lt (zpow_pos (by norm_num : (0:ℚ) < 2) (52 - qExp c t)))
      calc (t : ℚ) * 2 ^ (52 : ℤ)
          = 2 ^ qExp c t * t * 2 ^ (52 - qExp c t) := by
            rw [mul_comm ((2:ℚ) ^ qExp c t) (t:ℚ), mul_assoc,
              ← zpow_add₀ (by norm_num : (2:ℚ) ≠ 0)]
            norm_num
        _ ≤ c * 2 ^ (52 - qExp c t) := hmul
        _ = c * 2 ^ ((52 - qExp c t).toNat : ℕ) := by
            rw [← zpow_natCast (2:ℚ) (52 - qExp c t).toNat, hkz]
    have hq3 : (t : ℚ) * 2 ^ (52 : ℕ) ≤ c * 2 ^ ((52 - qExp c t).toNat : ℕ) := by
      have : (2 : ℚ) ^ (52 : ℤ) = 2 ^ (52 : ℕ) := by norm_num
      rw [this] at hq2
      exact hq2
    exact_mod_cast hq3

theorem percentage_of_nonneg_le {c t : Nat} (hct : c ≤ t) (ht : 0 < t) :
    0 ≤ percentage_of c t ∧ percentage_of c t ≤ 100 := by
  rcases Nat.eq_zero_or_pos c with hc0 | hc
  · subst hc0
    have hz : percentage_of 0 t = 0 := by
      rw [percentage_of, if_pos ht]
      have h1 : floatDivND 0 t = (0, 0) := by rw [floatDivND, if_pos rfl]
      rw [h1]
      decide
    rw [hz]
    omega
  · obtain ⟨he0, hm_le, hm_ge⟩ := floatDivND_spec hc hct
    set m1 := (floatDivND c t).1 with hm1
    set e1 := (floatDivND c t).2 with he1
    set k := ((52 : ℤ) - e1).toNat with hk
    have hkz : (k : ℤ) = 52 - e1 := Int.toNat_of_nonneg (by omega)
    have h2_52 : 0 < 2 ^ 52 := Nat.pos_pow_of_pos _ (by norm_num)
    have hm1pos : ¬ m1 = 0 := by omega
    have ha2pos : 1 ≤ 100 * m1 := by omega
    obtain ⟨hl1, hl2⟩ := natLog2_spec (100 * m1) ha2pos
    set l := natLog2 (100 * m1) with hl
    have h58 : 58 ≤ l := by
      have h1 : (2 : ℕ) ^ 58 ≤ 100 * m1 := by
        calc (2:ℕ) ^ 58 = 64 * 2 ^ 52 := by norm_num
          _ ≤ 100 * 2 ^ 52 := by omega
          _ ≤ 100 * m1 := Nat.mul_le_mul_left _ hm_ge
      have h2 : (2:ℕ) ^ 58 < 2 ^ (l + 1) := lt_of_le_of_lt h1 hl2
      have h3 : 58 < l + 1 :=
        (Nat.pow_lt_pow_iff_right (by norm_num : 1 < 2)).mp h2
      omega
    have hlk : l ≤ k + 6 := by
      have h1 : 100 * m1 ≤ 100 * 2 ^ k := Nat.mul_le_mul_left _ hm_le
      have h2 : (2:ℕ) ^ l ≤ 100 * 2 ^ k := le_trans hl1 h1
      have hkpos : 0 < 2 ^ k := Nat.pos_pow_of_pos _ (by norm_num)
      have h4 : (2:ℕ) ^ l < 2 ^ (k + 7) := by
        calc (2:ℕ) ^ l ≤ 100 * 2 ^ k := h2
          _ < 128 * 2 ^ k := by omega
          _ = 2 ^ (k + 7) := by rw [pow_add]; ring
      have h5 : l < k + 7 :=
        (Nat.pow_lt_pow_iff_right (by norm_num : 1 < 2)).mp h4
      omega
    have hfm : floatMul100 (floatDivND c t) =
        (roundNEND (100 * m1) (2 ^ (l - 52)), e1 + l - 52) := by
      rw [floatMul100]
      rw [if_neg hm1pos]
      simp only [← hm1, ← hl]
      rw [if_pos (by omega : 52 ≤ l)]
    set m2 := roundNEND (100 * m1) (2 ^ (l - 52)) with hm2def
    set e2 : ℤ := e1 + l - 52 with he2
    have hd0 : (0 : ℤ) ≤ 52 - e2 := by omega
    set d := ((52 : ℤ) - e2).toNat with hd
    have hdz : (d : ℤ) = 52 - e2 := Int.toNat_of_nonneg hd0
    have hd46 : 46 ≤ d := by omega
    have hpy : pyIntOfFloat (m2, e2) = ((m2 / 2 ^ d : ℕ) : ℤ) := by
      rw [pyIntOfFloat]
      have hneg : ¬ (0 : ℤ) ≤ e2 - 52 := by omega
      rw [if_neg hneg]
    have hm2bound : m2 ≤ 100 * 2 ^ d + 1 := by
      have h1 := roundNEND_le_div_succ (100 * m1) (2 ^ (l - 52))
      have hsum : d + (l - 52) = k := by omega
      have h3 : 100 * m1 ≤ (100 * 2 ^ d) * 2 ^ (l - 52) := by
        rw [mul_assoc, ← pow_add, hsum]
        exact Nat.mul_le_mul_left _ hm_le
      have h2 : (100 * m1) / 2 ^ (l - 52) ≤ 100 * 2 ^ d := by
        calc (100 * m1) / 2 ^ (l - 52)
            ≤ ((100 * 2 ^ d) * 2 ^ (l - 52)) / 2 ^ (l - 52) :=
              Nat.div_le_div_right h3
          _ = 100 * 2 ^ d :=
              Nat.mul_div_cancel _ (Nat.pos_pow_of_pos _ (by norm_num))
      omega
    rw [percentage_of, if_pos ht, hfm, hpy]
    constructor
    · exact Int.ofNat_nonneg _
    · have hP : 2 ≤ 2 ^ d := by
        calc (2:ℕ) = 2 ^ 1 := rfl
          _ ≤ 2 ^ d := Nat.pow_le_pow_right (by norm_num) (by omega)
      have hdiv : m2 / 2 ^ d < 101 := by
        apply (Nat.div_lt_iff_lt_mul (Nat.pos_pow_of_pos _ (by norm_num))).mpr
        calc m2 ≤ 100 * 2 ^ d + 1 := hm2bound
          _ < 101 * 2 ^ d := by omega
      have : m2 / 2 ^ d ≤ 100 := by omega
      exact_mod_cast this

/-! ## Per-unit dispatcher case lemmas -/

theorem process_unit_ok {proc : Nat → Str → Except Str Str} {c r : Str}
    (h : proc 0 c = Except.ok r) :
    process_unit proc c =
      (if r = [] then c else r, [DispatchEv.acquire, DispatchEv.call 0]) := by
  simp only [process_unit, h]

theorem process_unit_err {proc : Nat → Str → Except Str Str} {c e : Str}
    (h : proc 0 c = Except.error e) (hrl : isRateLimitMsg e = false) :
    process_unit proc c = (c, [DispatchEv.acquire, DispatchEv.call 0]) := by
  simp only [process_unit, h, hrl]
  rfl

theorem process_unit_rl_ok {proc : Nat → Str → Except Str Str} {c e r : Str}
    (h0 : proc 0 c = Except.error e) (hrl : isRateLimitMsg e = true)
    (h1 : proc 1 c = Except.ok r) :
    process_unit proc c =
      (if r = [] then c else r,
        [DispatchEv.acquire, DispatchEv.call 0, DispatchEv.sleep 5,
         DispatchEv.acquire, DispatchEv.call 1]) := by
  simp only [process_unit, h0, hrl, h1]
  rfl

theorem process_unit_rl_err {proc : Nat → Str → Except Str Str} {c e e' : Str}
    (h0 : proc 0 c = Except.error e) (hrl : isRateLimitMsg e = true)
    (h1 : proc 1 c = Except.error e') :
    process_unit proc c =
      (c, [DispatchEv.acquire, DispatchEv.call 0, DispatchEv.sleep 5,
           DispatchEv.acquire, DispatchEv.call 1]) := by
  simp only [process_unit, h0, hrl, h1]
  rfl

theorem process_chunks_parallel_getElem (proc : Nat → Str → Except Str Str)
    (chunks : List Str) (order : List Nat)
    (h : order.Perm (List.range chunks.length)) (i : Nat)
    (hi : i < chunks.length) :
    (process_chunks_parallel proc chunks order)[i]? =
      some (some (process_unit proc (chunks.getD i [])).1) := by
  rw [process_chunks_parallel_eq proc chunks order h, List.getElem?_map,
    List.getElem?_eq_getElem hi]
  simp [List.getD, List.getElem?_eq_getElem hi]

/-! ## Claim theorems -/

/-- C1: for every completion order that is a permutation of the indices,
`process_chunks_parallel` returns a list of the same length as `chunks`
whose entry at index `i` is the per-unit outcome for `chunks[i]`; and if
the processor always fails, every entry is the corresponding input chunk
unchanged. -/
theorem dispatcher_preserves_length_and_order
    (proc : Nat → Str → Except Str Str) (chunks : List Str) (order : List Nat)
    (h : order.Perm (List.range chunks.length)) :
    (process_chunks_parallel proc chunks order).length = chunks.length ∧
    (∀ i, i < chunks.length →
      (process_chunks_parallel proc chunks order)[i]? =
        some (some (process_unit proc (chunks.getD i [])).1)) ∧
    ((∀ n c, ∃ e, proc n c = Except.error e) →
      process_chunks_parallel proc chunks order = chunks.map some) := by
  refine ⟨?_, fun i hi => process_chunks_parallel_getElem proc chunks order h i hi, ?_⟩
  · rw [process_chunks_parallel_eq proc chunks order h, List.length_map]
  · intro hall
    rw [process_chunks_parallel_eq proc chunks order h]
    apply List.map_congr_left
    intro c _
    obtain ⟨e0, h0⟩ := hall 0 c
    by_cases hrl : isRateLimitMsg e0 = true
    · obtain ⟨e1, h1⟩ := hall 1 c
      rw [process_unit_rl_err h0 hrl h1]
    · rw [process_unit_err h0 (by simpa using hrl)]

/-- Witness for C1 at a concrete inverse completion order. -/
theorem dispatcher_preserves_length_and_order_witness :
    ([1, 0].Perm (List.range 2)) ∧
    (process_chunks_parallel (fun _ c => Except.ok c)
      ["ab".toList, "c".toList] [1, 0]).length = 2 :=
  ⟨by decide,
    (dispatcher_preserves_length_and_order (fun _ c => Except.ok c)
      ["ab".toList, "c".toList] [1, 0] (by decide)).1⟩

/-- C2 counterexample: chunking `"a।b।xxxxxxxxxx"` with limit 6 replaces
the two danda sentence separators by tabs, so the concatenated chunks do
not reconstruct the text even modulo whitespace: the danda characters of
the input are dropped. -/
theorem chunk_concat_drops_danda :
    List.filter (fun c => !pyWs c)
        (chunk_text ("a।b।xxxxxxxxxx".toList) 6).flatten ≠
      List.filter (fun c => !pyWs c) ("a।b।xxxxxxxxxx".toList) := by
  decide

/-- C2 amended: concatenating the chunks reconstructs the text modulo
whitespace normalization and the danda sentence separator (which the
sentence splitter replaces by a tab); for texts that contain no danda the
reconstruction is lossless modulo whitespace alone. -/
theorem chunk_concat_reconstructs_modulo_ws_and_danda (T : Str) (S : Nat) :
    List.filter (fun c => !pyWs c && !(c == danda)) (chunk_text T S).flatten =
      List.filter (fun c => !pyWs c && !(c == danda)) T ∧
    (danda ∉ T →
      List.filter (fun c => !pyWs c) (chunk_text T S).flatten =
        List.filter (fun c => !pyWs c) T) := by
  have hq : ∀ c, pyWs c = true → (!pyWs c && !(c == danda)) = false := by
    intro c hc
    simp [hc]
  have hqd : (!pyWs danda && !(danda == danda)) = false := by decide
  have h1 := chunk_text_content (fun c => !pyWs c && !(c == danda)) hq hqd T S
  refine ⟨h1, fun hnd => ?_⟩
  have hL : ∀ x ∈ (chunk_text T S).flatten,
      (!pyWs x) = (!pyWs x && !(x == danda)) := by
    intro x hx
    have hch := chunk_text_chars T S x hx
    have hxd : ¬ x = danda := by
      rcases hch with h' | h' | h'
      · intro he; exact hnd (he ▸ h')
      · subst h'; decide
      · subst h'; decide
    simp [hxd]
  have hR : ∀ x ∈ T, (!pyWs x) = (!pyWs x && !(x == danda)) := by
    intro x hx
    have hxd : ¬ x = danda := fun he => hnd (he ▸ hx)
    simp [hxd]
  rw [List.filter_congr hL, h1, ← List.filter_congr hR]

/-- Witness for C2 on a danda-free text. -/
theorem chunk_concat_reconstructs_witness :
    danda ∉ ("a b".toList) ∧
    List.filter (fun c => !pyWs c) (chunk_text ("a b".toList) 5).flatten =
      List.filter (fun c => !pyWs c) ("a b".toList) :=
  ⟨by decide,
    (chunk_concat_reconstructs_modulo_ws_and_danda ("a b".toList) 5).2 (by decide)⟩

/-- C3: whenever the first processor call on a unit fails with any
rate-limit-class message (one whose text contains "429", or whose
lowercase form contains "quota" or "rate" — `isRateLimitMsg`), the
dispatcher backs off 5 seconds and calls the processor on that unit
exactly one more time, again through the rate limiter (the trace is
acquire, call 0, sleep 5, acquire, call 1, whatever the retry does); if
the retry also fails — with any message — the original unaltered unit is
stored, and if it succeeds its truthy result is stored; consequently a
processor that always fails with message "429 quota exceeded" is called
exactly twice per unit and the dispatcher returns every original unit
unchanged. -/
theorem rate_limit_retry_once_policy (proc : Nat → Str → Except Str Str) :
    (∀ c e, proc 0 c = Except.error e → isRateLimitMsg e = true →
      (process_unit proc c).2 =
        [DispatchEv.acquire, DispatchEv.call 0, DispatchEv.sleep 5,
         DispatchEv.acquire, DispatchEv.call 1]) ∧
    (∀ c e e', proc 0 c = Except.error e → isRateLimitMsg e = true →
      proc 1 c = Except.error e' →
      process_unit proc c =
        (c, [DispatchEv.acquire, DispatchEv.call 0, DispatchEv.sleep 5,
             DispatchEv.acquire, DispatchEv.call 1])) ∧
    (∀ c e r, proc 0 c = Except.error e → isRateLimitMsg e = true →
      proc 1 c = Except.ok r →
      process_unit proc c =
        (if r = [] then c else r,
          [DispatchEv.acquire, DispatchEv.call 0, DispatchEv.sleep 5,
           DispatchEv.acquire, DispatchEv.call 1])) ∧
    ((∀ n c, proc n c = Except.error ("429 quota exceeded".toList)) →
      (∀ c, process_unit proc c =
        (c, [DispatchEv.acquire, DispatchEv.call 0, DispatchEv.sleep 5,
             DispatchEv.acquire, DispatchEv.call 1])) ∧
      (∀ chunks order, order.Perm (List.range chunks.length) →
        process_chunks_parallel proc chunks order = chunks.map some)) := by
  refine ⟨?_, ?_, ?_, ?_⟩
  · intro c e h0 hrl
    cases h1 : proc 1 c with
    | ok r => rw [process_unit_rl_ok h0 hrl h1]
    | error e' => rw [process_unit_rl_err h0 hrl h1]
  · intro c e e' h0 hrl h1
    exact process_unit_rl_err h0 hrl h1
  · intro c e r h0 hrl h1
    exact process_unit_rl_ok h0 hrl h1
  · intro hfail
    have hper : ∀ c, process_unit proc c =
        (c, [DispatchEv.acquire, DispatchEv.call 0, DispatchEv.sleep 5,
             DispatchEv.acquire, DispatchEv.call 1]) := by
      intro c
      exact process_unit_rl_err (hfail 0 c) (by decide) (hfail 1 c)
    refine ⟨hper, fun chunks order hp => ?_⟩
    rw [process_chunks_parallel_eq proc chunks order hp]
    apply List.map_congr_left
    intro c _
    rw [hper c]

/-- Witness for C3: a failure classified only by the lowercase "rate"
match whose retry fails with an unrelated message still yields one
back-off, one retry, and the original unit; and the constant-429
processor leaves two chunks unchanged under an inverse completion
order. -/
theorem rate_limit_retry_once_policy_witness :
    isRateLimitMsg ("Rate limit".toList) = true ∧
    process_unit
        (fun n _ => if n = 0 then Except.error ("Rate limit".toList)
          else Except.error ("boom".toList)) ("ab".toList) =
      ("ab".toList,
        [DispatchEv.acquire, DispatchEv.call 0, DispatchEv.sleep 5,
         DispatchEv.acquire, DispatchEv.call 1]) ∧
    process_chunks_parallel (fun _ _ => Except.error ("429 quota exceeded".toList))
        ["ab".toList, "c".toList] [1, 0] =
      [some ("ab".toList), some ("c".toList)] := by
  have h := rate_limit_retry_once_policy
    (fun n _ => if n = 0 then Except.error ("Rate limit".toList)
      else Except.error ("boom".toList))
  have h429 := rate_limit_retry_once_policy
    (fun _ _ => Except.error ("429 quota exceeded".toList))
  refine ⟨by decide, ?_, ?_⟩
  · exact h.2.1 ("ab".toList) ("Rate limit".toList) ("boom".toList) rfl
      (by decide) rfl
  · exact ((h429.2.2.2 (fun _ _ => rfl)).2 ["ab".toList, "c".toList] [1, 0]
      (by decide)).trans (by decide)

/-- C4: a non-rate-limit failure or an empty (falsy) result causes no
retry — a single processor call — and stores the original unit, and the
dispatcher still fills every sibling slot with its own per-unit outcome
(no failure propagates, no sibling is aborted). -/
theorem non_rate_limit_failure_no_retry (proc : Nat → Str → Except Str Str) :
    (∀ c e, proc 0 c = Except.error e → isRateLimitMsg e = false →
      process_unit proc c = (c, [DispatchEv.acquire, DispatchEv.call 0])) ∧
    (∀ c, proc 0 c = Except.ok [] →
      process_unit proc c = (c, [DispatchEv.acquire, DispatchEv.call 0])) ∧
    (∀ chunks order, order.Perm (List.range chunks.length) →
      ∀ i, i < chunks.length →
        (process_chunks_parallel proc chunks order)[i]? =
          some (some (process_unit proc (chunks.getD i [])).1)) := by
  refine ⟨fun c e h hrl => process_unit_err h hrl, fun c h => ?_,
    fun chunks order hp i hi =>
      process_chunks_parallel_getElem proc chunks order hp i hi⟩
  rw [process_unit_ok h]
  simp

/-- Witness for C4 with an unrelated-error processor. -/
theorem non_rate_limit_failure_no_retry_witness :
    process_unit (fun _ _ => Except.error ("boom".toList)) ("ab".toList) =
      ("ab".toList, [DispatchEv.acquire, DispatchEv.call 0]) :=
  (non_rate_limit_failure_no_retry (fun _ _ => Except.error ("boom".toList))).1
    ("ab".toList) ("boom".toList) rfl (by decide)

/-- C5: every chunk is within the size limit, except one that is the
strip of a single atomic sentence segment (of an oversized paragraph)
that itself exceeds the limit and is emitted whole. -/
theorem chunk_size_bound (T : Str) (S : Nat) (c : Str)
    (hc : c ∈ chunk_text T S) :
    c.length ≤ S ∨ ∃ p, p ∈ splitParas T ∧ S < p.length ∧
      ∃ s, s ∈ sentencesOf p ∧ S < s.length ∧ c = pyStrip s :=
  chunk_text_sizes T S c hc

/-- Witness for C5: an oversized atomic segment is emitted whole. -/
theorem chunk_size_bound_witness :
    ("xxxxxxx".toList ∈ chunk_text ("xxxxxxx".toList) 3) ∧
    (("xxxxxxx".toList).length ≤ 3 ∨
      ∃ p, p ∈ splitParas ("xxxxxxx".toList) ∧ 3 < p.length ∧
        ∃ s, s ∈ sentencesOf p ∧ 3 < s.length ∧ "xxxxxxx".toList = pyStrip s) :=
  ⟨by decide,
    chunk_size_bound ("xxxxxxx".toList) 3 ("xxxxxxx".toList) (by decide)⟩

/-- C6 counterexample: chunking the empty text yields one empty chunk,
not the empty list. -/
theorem chunk_empty_text_not_nil :
    chunk_text [] 5 = [[]] ∧ chunk_text [] 5 ≠ [] := by decide

/-- C6 amended: the empty text yields exactly one chunk, the empty
string (not zero chunks); any text within the limit with no blank-line
boundary yields exactly one chunk, its strip. -/
theorem chunk_empty_and_single_paragraph :
    (∀ S, chunk_text [] S = [[]]) ∧
    (∀ (T : Str) (S : Nat), T.length ≤ S → ¬ (['\n', '\n'] <:+: T) →
      chunk_text T S = [pyStrip T]) :=
  ⟨chunk_text_nil, fun T S h1 h2 => chunk_text_single T S h1 h2⟩

/-- Witness for C6 on a short boundary-free text. -/
theorem chunk_empty_and_single_paragraph_witness :
    chunk_text ("a b".toList) 5 = [pyStrip ("a b".toList)] :=
  chunk_empty_and_single_paragraph.2 ("a b".toList) 5 (by decide) (by decide)

/-- C7 counterexample: the stored percentage is computed with binary64
floats as `int((current/total)*100)`; at current = 29, total = 100 this
gives 28, while `floor(100*29/100) = 29`. -/
theorem percentage_float_rounding_29_100 :
    percentage_of 29 100 = 28 ∧ (100 * 29) / 100 = 29 ∧
      percentage_of 29 100 ≠ (((100 * 29) / 100 : Nat) : ℤ) := by decide

/-- C7 amended: an unset or empty job id makes `update_progress` a
no-op; a truthy job id stores the snapshot whose percentage is the
binary64 value `int((current/total)*100)` — which can fall one below
`floor(100*current/total)` — equal to 0 when total = 0 and always within
[0, 100] when current ≤ total. -/
theorem update_progress_spec (job_id : Option Str)
    (tracker : Str → Option ProgressSnapshot) (c t : Nat) (status : Str) :
    (jobTruthy job_id = false →
      update_progress job_id tracker c t status = tracker) ∧
    (∀ j, job_id = some j → ¬ j = [] →
      update_progress job_id tracker c t status j =
        some ⟨c, t, status, percentage_of c t⟩) ∧
    (t = 0 → percentage_of c t = 0) ∧
    (c ≤ t → 0 ≤ percentage_of c t ∧ percentage_of c t ≤ 100) := by
  refine ⟨?_, ?_, ?_, ?_⟩
  · intro h
    cases job_id with
    | none => rfl
    | some j =>
      have hj : j.isEmpty = true := by simpa [jobTruthy] using h
      simp [update_progress, hj]
  · intro j hjid hne
    subst hjid
    have hj : j.isEmpty = false := by
      cases j
      · exact absurd rfl hne
      · rfl
    simp [update_progress, hj]
  · intro h
    subst h
    rfl
  · intro hct
    rcases Nat.eq_zero_or_pos t with h0 | hpos
    · subst h0
      have hc0 : c = 0 := Nat.le_zero.mp hct
      subst hc0
      simp [percentage_of]
    · exact percentage_of_nonneg_le hct hpos

/-- Witness for C7 at job "j", current 1, total 3. -/
theorem update_progress_spec_witness :
    update_progress (some ("j".toList)) (fun _ => none) 1 3 ("s".toList)
        ("j".toList) = some ⟨1, 3, "s".toList, 33⟩ ∧
    0 ≤ percentage_of 1 3 ∧ percentage_of 1 3 ≤ 100 := by
  have h := update_progress_spec (some ("j".toList)) (fun _ => none) 1 3
    ("s".toList)
  refine ⟨(h.2.1 ("j".toList) rfl (by decide)).trans (by decide), ?_, ?_⟩
  · exact (h.2.2.2 (by decide)).1
  · exact (h.2.2.2 (by decide)).2

/-- C8: `perform_ocr` equals the blank-line join of the non-empty
per-page texts in original page order, for every completion order; a
failing or whitespace-only page contributes the empty string and is
omitted from the join. -/
theorem perform_ocr_joins_nonempty_pages (n : Nat)
    (extract : Nat → Except Str Str) (order : List Nat)
    (h : order.Perm (List.range n)) :
    perform_ocr n extract order =
      List.intercalate ['\n', '\n']
        (((List.range n).map (ocr_page extract)).filter (fun t => !t.isEmpty)) ∧
    (∀ i e, extract i = Except.error e → ocr_page extract i = []) ∧
    (∀ i t', extract i = Except.ok t' → pyStrip t' = [] →
      ocr_page extract i = []) := by
  refine ⟨perform_ocr_eq n extract order h, ?_, ?_⟩
  · intro i e he
    simp [ocr_page, he]
  · intro i t' ht' hstrip
    simp [ocr_page, ht', hstrip]

/-- Witness for C8: three pages with a failure on page 2 reassemble to
page 1 text, a blank-line boundary, page 3 text. -/
theorem perform_ocr_joins_nonempty_pages_witness :
    ([2, 0, 1].Perm (List.range 3)) ∧
    perform_ocr 3
        (fun i => if i = 0 then Except.ok ("p1".toList)
          else if i = 1 then Except.error ("fail".toList)
          else Except.ok ("p3".toList)) [2, 0, 1] =
      "p1".toList ++ ['\n', '\n'] ++ "p3".toList := by
  have h := perform_ocr_joins_nonempty_pages 3
    (fun i => if i = 0 then Except.ok ("p1".toList)
      else if i = 1 then Except.error ("fail".toList)
      else Except.ok ("p3".toList)) [2, 0, 1] (by decide)
  exact ⟨by decide, h.1.trans (by decide)⟩

/-- C9: the recorded start times of rate-limited calls are spaced by at
least `min_request_interval` each — `start j - start i ≥ (j-i) * 0.2 s`
— for every sequence of clock reads in lock order (in particular the
admissible ones, see `rl_admissible`), so N acquisitions span at least
`(N-1) * 0.2 s`; the guarded region computes only the new limiter
state, and the processed function's value is produced outside it,
independent of the limiter. -/
theorem rate_limiter_min_interval_spacing (last : ℚ) (arrivals : List ℚ) :
    (rl_starts min_request_interval last arrivals).length = arrivals.length ∧
    (∀ i j (hi : i < (rl_starts min_request_interval last arrivals).length)
      (hj : j < (rl_starts min_request_interval last arrivals).length),
      i ≤ j →
      (rl_starts min_request_interval last arrivals).get ⟨i, hi⟩ +
          ((j - i : ℕ) : ℚ) * min_request_interval ≤
        (rl_starts min_request_interval last arrivals).get ⟨j, hj⟩) ∧
    (∀ (α β : Type) (f : α → β) (x : α) (a : ℚ),
      process_with_rate_limit min_request_interval last a f x =
        (rl_acquire min_request_interval last a, f x)) := by
  refine ⟨rl_starts_length min_request_interval arrivals last,
    fun i j hi hj hij =>
      rl_starts_get_le min_request_interval arrivals last i j hi hj hij,
    fun α β f x a => rfl⟩

/-- Witness for C9: two calls arriving as fast as admissible start
exactly 0.2 s apart. -/
theorem rate_limiter_min_interval_spacing_witness :
    rl_admissible min_request_interval 0 [0, 1/5] ∧
    (rl_starts min_request_interval 0 [0, 1/5]).length = 2 ∧
    (rl_starts min_request_interval 0 [0, 1/5]).get
        ⟨0, by rw [rl_starts_length]; norm_num⟩ +
        ((1 - 0 : ℕ) : ℚ) * min_request_interval ≤
      (rl_starts min_request_interval 0 [0, 1/5]).get
        ⟨1, by rw [rl_starts_length]; norm_num⟩ := by
  have hadm : rl_admissible min_request_interval 0 [0, 1/5] := by
    refine ⟨le_refl 0, ?_, trivial⟩
    rw [rl_acquire, min_request_interval]
    norm_num
  have h := rate_limiter_min_interval_spacing 0 [0, 1/5]
  exact ⟨hadm, h.1, h.2.1 0 1 _ _ (by norm_num)⟩

/-- C10: every chunk emitted by `chunk_text` equals its own strip — no
leading or trailing whitespace survives. -/
theorem chunk_text_all_chunks_stripped (T : Str) (S : Nat) (c : Str)
    (hc : c ∈ chunk_text T S) : pyStrip c = c :=
  chunk_text_stripped T S c hc

/-- Witness for C10 on a concrete chunk. -/
theorem chunk_text_all_chunks_stripped_witness :
    ("ab".toList ∈ chunk_text ("ab".toList) 5) ∧
    pyStrip ("ab".toList) = "ab".toList :=
  ⟨by decide,
    chunk_text_all_chunks_stripped ("ab".toList) 5 ("ab".toList) (by decide)⟩

